import Mathlib

/-!
# Flood control: a sliding-window gate per user

Shallow embedding of `main.go` (package `main`): the type `floodControl`, its constructor
`NewFloodControl` and its method `Check`.

* A `time.Time` obtained from `time.Now()` carries a monotonic clock reading, a signed 64-bit
  count of nanoseconds; it is modelled by that reading, an integer.
* A `time.Duration` is a signed 64-bit count of nanoseconds, modelled by an integer.
* `now.Sub(t)` is the saturating difference of the standard library (`Sub`); it is the plain
  difference `now - t` for clock readings in the range of the monotonic clock
  (`Sub_eq_of_range`). Where the specification writes `now - t`, the theorems write
  `Sub now t`, which is what the code compares with `Interval`.
* The map `checks` of type `map[int64][]time.Time` is modelled by its lookup function:
  `none` for an absent key, `some h` for a key whose slice holds the timestamps `h` in order.
* The clock reading that `time.Now()` returns inside `Check` is an explicit argument.
* `Check` runs under the exclusive lock `checksLock`; the embedding is the sequential
  semantics of one locked call.
-/

namespace FloodControl

/-- Largest value of a `time.Duration` (`1<<63 - 1`). -/
def maxDuration : Int := 9223372036854775807

/-- Smallest value of a `time.Duration` (`-1 << 63`). -/
def minDuration : Int := -9223372036854775808

/-- The library method `t.Sub(u)` on `time.Time`: the duration `t - u`, replaced by the largest
(smallest) duration when the difference exceeds it. -/
def Sub (t u : Int) : Int :=
  if maxDuration < t - u then maxDuration
  else if t - u < minDuration then minDuration
  else t - u

/-- The struct `Config`. -/
structure Config where
  /-- Interval of time over which requests are counted. -/
  Interval : Int
  /-- Maximal number of requests during the interval. -/
  MaxChecks : Int
  deriving DecidableEq

/-- The error a `context.Context` reports through `Err()`. -/
inductive CtxError where
  | Canceled
  | DeadlineExceeded
  deriving DecidableEq

/-- What `Check` can observe of a `context.Context`: the value of `ctx.Err()` at call time,
`none` for a live context. -/
structure Context where
  /-- Result of `ctx.Err()`. -/
  Err : Option CtxError
  deriving DecidableEq

/-- The context `context.Background()`: never cancelled. -/
def Background : Context := ⟨none⟩

/-- The struct `floodControl` (the lock is left out: calls are taken one at a time). -/
structure floodControl where
  /-- Field `config`. -/
  config : Config
  /-- Field `checks`, a `map[int64][]time.Time`, as a lookup function. -/
  checks : Int → Option (List Int)

/-- The constructor `NewFloodControl`: the given configuration and an empty map. -/
def NewFloodControl (config : Config) : floodControl :=
  { config := config, checks := fun _ => none }

/-- The loop `for len(checks) > 0 && now.Sub(checks[0]) > fc.config.Interval { checks = checks[1:] }`
of `Check`: the slice it leaves. -/
def evict (now : Int) (interval : Int) : List Int → List Int
  | [] => []
  | t :: rest => if interval < Sub now t then evict now interval rest else t :: rest

/-- Assignment `fc.checks[userID] = v`. -/
def setChecks (fc : floodControl) (userID : Int) (v : List Int) : floodControl :=
  { fc with checks := fun k => if k = userID then some v else fc.checks k }

/-- The method `floodControl.Check`, with `now` the value of `time.Now()`.
Returns the pair `(bool, error)` of the Go method (`none` is the `nil` error) and the
`floodControl` after the call. The argument `ctx` is not used by the body. Reading a key of a Go
map that is absent gives the nil slice, of length 0 (`getD []`). -/
def Check (fc : floodControl) (_ctx : Context) (userID : Int) (now : Int) :
    (Bool × Option CtxError) × floodControl :=
  match fc.checks userID with
  | none => ((true, none), setChecks fc userID [now])
  | some checks =>
    let checks := evict now fc.config.Interval checks
    let fc := setChecks fc userID (checks ++ [now])
    if fc.config.MaxChecks < (((fc.checks userID).getD []).length : Int) then ((false, none), fc)
    else ((true, none), fc)

/-- One call of `Check` in a sequence of calls: context, user and clock reading. -/
structure Call where
  /-- Context passed to `Check`. -/
  ctx : Context
  /-- Argument `userID`. -/
  userID : Int
  /-- Value of `time.Now()` during the call. -/
  now : Int
  deriving DecidableEq

/-- Successive calls of `Check`, one after the other: the results in call order and the
final `floodControl`. -/
def run (fc : floodControl) : List Call → List (Bool × Option CtxError) × floodControl
  | [] => ([], fc)
  | c :: cs =>
    let r := Check fc c.ctx c.userID c.now
    let rs := run r.2 cs
    (r.1 :: rs.1, rs.2)

/-- A call of `Check` for `userID` with the background context. -/
def callFor (userID : Int) (now : Int) : Call := ⟨Background, userID, now⟩

/-- The clock readings of the calls made for `userID`, in call order. -/
def timesFor (userID : Int) (calls : List Call) : List Int :=
  (calls.filter (fun c => decide (c.userID = userID))).map Call.now

/-- The results of the calls made for `userID`, given the calls and the results of all of
them in call order. -/
def resultsFor (userID : Int) :
    List Call → List (Bool × Option CtxError) → List (Bool × Option CtxError)
  | c :: cs, r :: rs =>
    if c.userID = userID then r :: resultsFor userID cs rs else resultsFor userID cs rs
  | _, _ => []

/-- Expected admissions of `m` successive checks for a user whose history has length `n` and
loses no timestamp: the check is admitted while the length after it is at most `maxChecks`. -/
def countUp (maxChecks : Int) : Nat → Nat → List (Bool × Option CtxError)
  | _, 0 => []
  | n, m + 1 => (decide ((n : Int) + 1 ≤ maxChecks), none) :: countUp maxChecks (n + 1) m

/-- The stored timestamps of a user: the slice `fc.checks[userID]`, empty for an absent key. -/
def stored (fc : floodControl) (userID : Int) : List Int := (fc.checks userID).getD []

/-- A context whose `Err()` is `context.Canceled`. -/
def cancelledCtx : Context := ⟨some CtxError.Canceled⟩

/-- A context whose `Err()` is `context.DeadlineExceeded`. -/
def expiredCtx : Context := ⟨some CtxError.DeadlineExceeded⟩

/-- The six calls of `main`, one second apart, for user 123 (clock readings in nanoseconds). -/
def mainCalls : List Call :=
  [callFor 123 0, callFor 123 1000000000, callFor 123 2000000000, callFor 123 3000000000,
    callFor 123 4000000000, callFor 123 5000000000]

/-- The configuration of `main`: an interval of ten seconds and five checks. -/
def mainConfig : Config := ⟨10000000000, 5⟩

/-- The six calls of `main` for user 123 with calls for users 7 and 8 in between. -/
def burstCalls : List Call :=
  [callFor 7 0, callFor 123 0, callFor 123 1000000000, callFor 8 1500000000,
    callFor 123 2000000000, callFor 7 2000000000, callFor 123 3000000000,
    callFor 123 4000000000, callFor 7 4500000000, callFor 123 5000000000]

/-- The clock readings of the calls made for `userID` that were admitted, given the calls
and the results of all of them in call order. -/
def admittedTimes (userID : Int) : List Call → List (Bool × Option CtxError) → List Int
  | c :: cs, r :: rs =>
    if c.userID = userID ∧ r.1 = true then c.now :: admittedTimes userID cs rs
    else admittedTimes userID cs rs
  | _, _ => []

/-- A timestamp `t` is stale at `now`: `now.Sub(t) > Interval`. -/
def stale (now : Int) (interval : Int) (t : Int) : Prop := interval < Sub now t

instance (now : Int) (interval : Int) (t : Int) : Decidable (stale now interval t) := by
  unfold stale; infer_instance

/-! ## Helper lemmas -/

theorem Sub_mono_left {a b : Int} (u : Int) (h : a ≤ b) : Sub a u ≤ Sub b u := by
  unfold Sub maxDuration minDuration
  split_ifs <;> omega

theorem Sub_anti_right (t : Int) {a b : Int} (h : a ≤ b) : Sub t b ≤ Sub t a := by
  unfold Sub maxDuration minDuration
  split_ifs <;> omega

theorem Sub_eq_of_range {t u : Int} (ht : 0 ≤ t) (ht' : t ≤ maxDuration)
    (hu : 0 ≤ u) (hu' : u ≤ maxDuration) : Sub t u = t - u := by
  unfold Sub
  unfold maxDuration at *
  unfold minDuration
  split_ifs <;> omega

theorem setChecks_self (fc : floodControl) (userID : Int) (v : List Int) :
    (setChecks fc userID v).checks userID = some v := by
  simp [setChecks]

theorem setChecks_other (fc : floodControl) {userID k : Int} (v : List Int) (h : k ≠ userID) :
    (setChecks fc userID v).checks k = fc.checks k := by
  simp [setChecks, h]

theorem setChecks_config (fc : floodControl) (userID : Int) (v : List Int) :
    (setChecks fc userID v).config = fc.config := rfl

/-- Outcome of `Check` for a user absent from the map. -/
theorem Check_absent (fc : floodControl) (ctx : Context) (userID : Int) (now : Int)
    (h : fc.checks userID = none) :
    Check fc ctx userID now = ((true, none), setChecks fc userID [now]) := by
  simp [Check, h]

/-- Outcome of `Check` for a user present in the map. -/
theorem Check_present (fc : floodControl) (ctx : Context) (userID : Int) (now : Int)
    (hist : List Int) (h : fc.checks userID = some hist) :
    Check fc ctx userID now =
      ((decide ((((evict now fc.config.Interval hist).length : Int) + 1) ≤ fc.config.MaxChecks),
        none),
       setChecks fc userID (evict now fc.config.Interval hist ++ [now])) := by
  simp only [Check, h, setChecks_self, setChecks_config, Option.getD_some]
  by_cases hc : fc.config.MaxChecks < ((evict now fc.config.Interval hist ++ [now]).length : Int)
  · rw [if_pos hc]
    have : ¬ (((evict now fc.config.Interval hist).length : Int) + 1 ≤ fc.config.MaxChecks) := by
      simp only [List.length_append, List.length_singleton] at hc
      push_cast at hc
      omega
    simp [this]
  · rw [if_neg hc]
    have : (((evict now fc.config.Interval hist).length : Int) + 1 ≤ fc.config.MaxChecks) := by
      simp only [List.length_append, List.length_singleton] at hc
      push_cast at hc
      omega
    simp [this]

/-- The eviction loop removes a prefix of stale timestamps and stops at the first timestamp
that is not stale. -/
theorem evict_decomp (now interval : Int) (h : List Int) :
    ∃ pre, h = pre ++ evict now interval h ∧ (∀ t ∈ pre, stale now interval t) ∧
      ∀ t, (evict now interval h).head? = some t → ¬ stale now interval t := by
  induction h with
  | nil => exact ⟨[], by simp [evict]⟩
  | cons a rest ih =>
    by_cases ha : interval < Sub now a
    · obtain ⟨pre, h1, h2, h3⟩ := ih
      refine ⟨a :: pre, ?_, ?_, ?_⟩
      · simp only [evict, if_pos ha, List.cons_append]
        rw [← h1]
      · intro t ht
        rcases List.mem_cons.mp ht with rfl | ht
        · exact ha
        · exact h2 t ht
      · simpa only [evict, if_pos ha] using h3
    · refine ⟨[], ?_, ?_, ?_⟩
      · simp [evict, if_neg ha]
      · intro t ht
        cases ht
      · intro t ht
        simp only [evict, if_neg ha, List.head?_cons, Option.some.injEq] at ht
        subst ht
        exact ha

/-- The eviction loop is `dropWhile` of the staleness test. -/
theorem evict_eq_dropWhile (now interval : Int) (h : List Int) :
    evict now interval h = h.dropWhile (fun t => decide (interval < Sub now t)) := by
  induction h with
  | nil => rfl
  | cons a rest ih =>
    by_cases ha : interval < Sub now a
    · simp [evict, ha, List.dropWhile_cons, ih]
    · simp [evict, ha, List.dropWhile_cons]

/-- When the first timestamp is not stale nothing is evicted. -/
theorem evict_head_fresh (now interval : Int) (a : Int) (rest : List Int)
    (ha : Sub now a ≤ interval) : evict now interval (a :: rest) = a :: rest := by
  simp [evict, not_lt.mpr ha]

/-- When every timestamp is stale all of them are evicted. -/
theorem evict_all_stale (now interval : Int) (h : List Int)
    (hs : ∀ t ∈ h, interval < Sub now t) : evict now interval h = [] := by
  induction h with
  | nil => rfl
  | cons a rest ih =>
    have ha : interval < Sub now a := hs a (List.mem_cons_self a rest)
    simp only [evict, if_pos ha]
    exact ih (fun t ht => hs t (List.mem_cons_of_mem a ht))

/-- On an ascending history the eviction loop keeps exactly the timestamps within the
interval. -/
theorem evict_eq_filter_of_sorted (now interval : Int) (h : List Int)
    (hs : h.Pairwise (fun a b => a ≤ b)) :
    evict now interval h = h.filter (fun t => decide (Sub now t ≤ interval)) := by
  induction h with
  | nil => rfl
  | cons a rest ih =>
    have hrest := ih (List.Pairwise.of_cons hs)
    have hle : ∀ b ∈ rest, a ≤ b := fun b hb => List.rel_of_pairwise_cons hs hb
    by_cases ha : interval < Sub now a
    · simp only [evict, if_pos ha, hrest]
      have : ¬ Sub now a ≤ interval := not_le.mpr ha
      simp [List.filter_cons, this]
    · simp only [evict, if_neg ha]
      have ha' : Sub now a ≤ interval := not_lt.mp ha
      have hall : ∀ b ∈ rest, decide (Sub now b ≤ interval) = true := by
        intro b hb
        exact decide_eq_true (le_trans (Sub_anti_right now (hle b hb)) ha')
      have hfull : (a :: rest).filter (fun t => decide (Sub now t ≤ interval)) = a :: rest := by
        apply List.filter_eq_self.mpr
        intro b hb
        rcases List.mem_cons.mp hb with rfl | hb
        · exact decide_eq_true ha'
        · exact hall b hb
      exact hfull.symm

/-- The eviction loop leaves a suffix of the history. -/
theorem evict_suffix (now interval : Int) (h : List Int) : evict now interval h <:+ h := by
  obtain ⟨pre, h1, _, _⟩ := evict_decomp now interval h
  exact ⟨pre, h1.symm⟩

/-- The check of one user leaves the slices of the other users as they are. -/
theorem Check_checks_other (fc : floodControl) (ctx : Context) {userID k : Int} (now : Int)
    (hk : k ≠ userID) : (Check fc ctx userID now).2.checks k = fc.checks k := by
  cases hc : fc.checks userID with
  | none => rw [Check_absent fc ctx userID now hc]; exact setChecks_other fc _ hk
  | some h => rw [Check_present fc ctx userID now h hc]; exact setChecks_other fc _ hk

/-- The configuration is never changed by `Check`. -/
theorem Check_config (fc : floodControl) (ctx : Context) (userID now : Int) :
    (Check fc ctx userID now).2.config = fc.config := by
  cases hc : fc.checks userID with
  | none => rw [Check_absent fc ctx userID now hc]; rfl
  | some h => rw [Check_present fc ctx userID now h hc]; rfl

/-- The result of `Check` and the slice it stores for the user depend only on the
configuration and on the slice stored for that user. -/
theorem Check_congr (fc fc' : floodControl) (ctx : Context) (userID now : Int)
    (hcfg : fc'.config = fc.config) (hchk : fc'.checks userID = fc.checks userID) :
    (Check fc' ctx userID now).1 = (Check fc ctx userID now).1 ∧
      (Check fc' ctx userID now).2.checks userID = (Check fc ctx userID now).2.checks userID := by
  cases hc : fc.checks userID with
  | none =>
    rw [Check_absent fc ctx userID now hc, Check_absent fc' ctx userID now (hchk.trans hc)]
    exact ⟨rfl, by rw [setChecks_self, setChecks_self]⟩
  | some h =>
    rw [Check_present fc ctx userID now h hc, Check_present fc' ctx userID now h (hchk.trans hc)]
    rw [hcfg]
    exact ⟨rfl, by rw [setChecks_self, setChecks_self]⟩

theorem run_nil (fc : floodControl) : run fc [] = ([], fc) := rfl

theorem run_cons (fc : floodControl) (c : Call) (cs : List Call) :
    run fc (c :: cs) =
      ((Check fc c.ctx c.userID c.now).1 :: (run (Check fc c.ctx c.userID c.now).2 cs).1,
        (run (Check fc c.ctx c.userID c.now).2 cs).2) := rfl

/-- A sequence of calls never changes the configuration. -/
theorem run_config (fc : floodControl) (calls : List Call) :
    (run fc calls).2.config = fc.config := by
  induction calls generalizing fc with
  | nil => rfl
  | cons c cs ih => rw [run_cons]; exact (ih _).trans (Check_config fc c.ctx c.userID c.now)

/-- A sequence of calls for other users leaves the slice of user `k` as it is. -/
theorem run_checks_other (fc : floodControl) (calls : List Call) (k : Int)
    (hk : ∀ c ∈ calls, c.userID ≠ k) : (run fc calls).2.checks k = fc.checks k := by
  induction calls generalizing fc with
  | nil => rfl
  | cons c cs ih =>
    rw [run_cons]
    have h1 := ih (Check fc c.ctx c.userID c.now).2 (fun d hd => hk d (List.mem_cons_of_mem c hd))
    have h2 : k ≠ c.userID := fun e => hk c (List.mem_cons_self c cs) e.symm
    exact h1.trans (Check_checks_other fc c.ctx c.now h2)

theorem timesFor_cons_self (userID : Int) (c : Call) (cs : List Call)
    (hc : c.userID = userID) : timesFor userID (c :: cs) = c.now :: timesFor userID cs := by
  simp [timesFor, hc]

theorem timesFor_cons_other (userID : Int) (c : Call) (cs : List Call)
    (hc : c.userID ≠ userID) : timesFor userID (c :: cs) = timesFor userID cs := by
  simp [timesFor, hc]

theorem mem_timesFor {userID : Int} {c : Call} {cs : List Call} (hc : c ∈ cs)
    (hu : c.userID = userID) : c.now ∈ timesFor userID cs := by
  simp only [timesFor, List.mem_map, List.mem_filter, decide_eq_true_eq]
  exact ⟨c, ⟨hc, hu⟩, rfl⟩

/-- While the first stored timestamp stays within the interval, nothing is evicted: the
history of the user grows by the clock readings of its calls, and the results are those
of `countUp`. -/
theorem run_no_evict (userID a : Int) (calls : List Call) :
    ∀ (fc : floodControl) (rest : List Int), fc.checks userID = some (a :: rest) →
      (∀ t ∈ timesFor userID calls, Sub t a ≤ fc.config.Interval) →
      (run fc calls).2.checks userID = some (a :: rest ++ timesFor userID calls) ∧
      resultsFor userID calls (run fc calls).1 =
        countUp fc.config.MaxChecks (rest.length + 1) (timesFor userID calls).length := by
  induction calls with
  | nil =>
    intro fc rest hp _
    simp [run_nil, timesFor, resultsFor, countUp, hp]
  | cons c cs ih =>
    intro fc rest hp hfresh
    rw [run_cons]
    by_cases hc : c.userID = userID
    · have hfa : Sub c.now a ≤ fc.config.Interval :=
        hfresh c.now (by rw [timesFor_cons_self userID c cs hc]; exact List.mem_cons_self _ _)
      have hp' : fc.checks c.userID = some (a :: rest) := by rw [hc]; exact hp
      have hstep := Check_present fc c.ctx c.userID c.now (a :: rest) hp'
      rw [evict_head_fresh c.now _ a rest hfa] at hstep
      have hcfg := Check_config fc c.ctx c.userID c.now
      have hchk : (Check fc c.ctx c.userID c.now).2.checks userID
          = some (a :: (rest ++ [c.now])) := by
        rw [hstep, ← hc]
        exact setChecks_self _ _ _
      have hrec := ih (Check fc c.ctx c.userID c.now).2 (rest ++ [c.now]) hchk
        (by
          intro t ht
          rw [hcfg]
          apply hfresh t
          rw [timesFor_cons_self userID c cs hc]
          exact List.mem_cons_of_mem _ ht)
      rw [timesFor_cons_self userID c cs hc]
      constructor
      · rw [hrec.1]
        simp
      · simp only [resultsFor, if_pos hc, List.length_cons, countUp]
        rw [hrec.2, hcfg]
        congr 1
        · rw [hstep]
          simp
        · simp
    · have hchk : (Check fc c.ctx c.userID c.now).2.checks userID = some (a :: rest) := by
        rw [Check_checks_other fc c.ctx c.now (Ne.symm hc)]
        exact hp
      have hcfg := Check_config fc c.ctx c.userID c.now
      have hrec := ih (Check fc c.ctx c.userID c.now).2 rest hchk
        (by
          intro t ht
          rw [hcfg]
          apply hfresh t
          rw [timesFor_cons_other userID c cs hc]
          exact ht)
      rw [timesFor_cons_other userID c cs hc]
      constructor
      · exact hrec.1
      · simp only [resultsFor, if_neg hc]
        rw [hrec.2, hcfg]

/-- A user absent from the map whose later calls all stay within the interval of its first
one: the first call is admitted and the following ones are those of `countUp`. -/
theorem run_fresh_burst (userID : Int) (calls : List Call) :
    ∀ (fc : floodControl) (t1 : Int) (ts : List Int), fc.checks userID = none →
      timesFor userID calls = t1 :: ts →
      (∀ t ∈ ts, Sub t t1 ≤ fc.config.Interval) →
      resultsFor userID calls (run fc calls).1 =
        (true, none) :: countUp fc.config.MaxChecks 1 ts.length := by
  induction calls with
  | nil =>
    intro fc t1 ts _ htimes _
    simp [timesFor] at htimes
  | cons c cs ih =>
    intro fc t1 ts habs htimes hfresh
    rw [run_cons]
    have hcfg := Check_config fc c.ctx c.userID c.now
    by_cases hc : c.userID = userID
    · rw [timesFor_cons_self userID c cs hc] at htimes
      obtain ⟨h1, h2⟩ := List.cons.inj htimes
      have habs' : fc.checks c.userID = none := by rw [hc]; exact habs
      have hstep := Check_absent fc c.ctx c.userID c.now habs'
      have hchk : (Check fc c.ctx c.userID c.now).2.checks userID = some (t1 :: []) := by
        rw [hstep, ← hc, ← h1]
        exact setChecks_self _ _ _
      have hrec := run_no_evict userID t1 cs (Check fc c.ctx c.userID c.now).2 [] hchk
        (by
          intro t ht
          rw [hcfg]
          apply hfresh t
          rw [← h2]
          exact ht)
      simp only [resultsFor, if_pos hc]
      rw [hrec.2, hcfg, h2, hstep]
      rfl
    · rw [timesFor_cons_other userID c cs hc] at htimes
      have hchk : (Check fc c.ctx c.userID c.now).2.checks userID = none := by
        rw [Check_checks_other fc c.ctx c.now (Ne.symm hc)]
        exact habs
      have hrec := ih (Check fc c.ctx c.userID c.now).2 t1 ts hchk htimes
        (by rw [hcfg]; exact hfresh)
      simp only [resultsFor, if_neg hc]
      rw [hrec, hcfg]

/-- The pattern of a burst: starting from length `n`, with `n + m = maxChecks`, the next
`m` checks are admitted and the one after is rejected. -/
theorem countUp_burst (maxChecks : Int) (m : Nat) :
    ∀ n : Nat, (n : Int) + m = maxChecks →
      countUp maxChecks n (m + 1) = List.replicate m (true, none) ++ [(false, none)] := by
  induction m with
  | zero =>
    intro n hn
    have : ¬ ((n : Int) + 1 ≤ maxChecks) := by push_cast at hn; omega
    simp [countUp, this]
  | succ m ih =>
    intro n hn
    have h1 : (n : Int) + 1 ≤ maxChecks := by push_cast at hn; omega
    have h2 := ih (n + 1) (by push_cast at hn ⊢; omega)
    rw [countUp, h2, List.replicate_succ]
    simp [h1]

/-- In an ascending list every element is at most the last one. -/
theorem le_getLast_of_sorted (l : List Int) (tl : Int) (hs : l.Pairwise (fun a b => a ≤ b))
    (hl : l.getLast? = some tl) : ∀ t ∈ l, t ≤ tl := by
  obtain ⟨ys, rfl⟩ := List.getLast?_eq_some_iff.mp hl
  intro t ht
  rcases List.mem_append.mp ht with h | h
  · exact (List.pairwise_append.mp hs).2.2 t h tl (List.mem_singleton_self tl)
  · rw [List.mem_singleton.mp h]

/-- What `Check` stores for the user it is called for: a suffix of the former history
followed by the clock reading. -/
theorem Check_checks_self (fc : floodControl) (ctx : Context) (userID now : Int) :
    ∃ suf, suf <:+ stored fc userID ∧
      (Check fc ctx userID now).2.checks userID = some (suf ++ [now]) := by
  cases hc : fc.checks userID with
  | none =>
    rw [Check_absent fc ctx userID now hc]
    exact ⟨[], List.nil_suffix, setChecks_self _ _ _⟩
  | some h =>
    rw [Check_present fc ctx userID now h hc]
    refine ⟨evict now fc.config.Interval h, ?_, setChecks_self _ _ _⟩
    simp only [stored, hc, Option.getD_some]
    exact evict_suffix now _ h

/-- Calls at non-decreasing clock readings keep every history ascending, provided the
histories are ascending at the start and hold no timestamp later than a coming call. -/
theorem run_sorted (calls : List Call) :
    ∀ (fc : floodControl), (calls.map Call.now).Pairwise (fun a b => a ≤ b) →
      (∀ k h, fc.checks k = some h →
        h.Pairwise (fun a b => a ≤ b) ∧ ∀ t ∈ h, ∀ c ∈ calls, t ≤ c.now) →
      ∀ k h, (run fc calls).2.checks k = some h → h.Pairwise (fun a b => a ≤ b) := by
  induction calls with
  | nil =>
    intro fc _ hinv k h hk
    exact (hinv k h hk).1
  | cons c cs ih =>
    intro fc hclock hinv k h hk
    rw [run_cons] at hk
    rw [List.map_cons, List.pairwise_cons] at hclock
    apply ih (Check fc c.ctx c.userID c.now).2 hclock.2 _ k h hk
    intro k' h' hk'
    by_cases hkc : k' = c.userID
    · subst hkc
      obtain ⟨suf, hsuf, hst⟩ := Check_checks_self fc c.ctx c.userID c.now
      rw [hst] at hk'
      obtain rfl := Option.some.inj hk'
      have hold : ∀ t ∈ suf, t ∈ stored fc c.userID := fun t ht => hsuf.subset ht
      cases hf : fc.checks c.userID with
      | none =>
        have : suf = [] := by
          simp only [stored, hf, Option.getD_none] at hsuf
          exact List.eq_nil_of_suffix_nil hsuf
        subst this
        refine ⟨by simp, ?_⟩
        intro t ht d hd
        rw [List.nil_append, List.mem_singleton] at ht
        rw [ht]
        exact hclock.1 d.now (List.mem_map_of_mem Call.now hd)
      | some h0 =>
        simp only [stored, hf, Option.getD_some] at hsuf hold
        obtain ⟨hs0, hb0⟩ := hinv c.userID h0 hf
        constructor
        · rw [List.pairwise_append]
          refine ⟨hs0.sublist hsuf.sublist, by simp, ?_⟩
          intro t ht u hu
          rw [List.mem_singleton.mp hu]
          exact hb0 t (hold t ht) c (List.mem_cons_self c cs)
        · intro t ht d hd
          rcases List.mem_append.mp ht with h1 | h1
          · exact hb0 t (hold t h1) d (List.mem_cons_of_mem c hd)
          · rw [List.mem_singleton.mp h1]
            exact hclock.1 d.now (List.mem_map_of_mem Call.now hd)
    · rw [Check_checks_other fc c.ctx c.now hkc] at hk'
      obtain ⟨hs0, hb0⟩ := hinv k' h' hk'
      exact ⟨hs0, fun t ht d hd => hb0 t ht d (List.mem_cons_of_mem c hd)⟩

/-- From the empty map, calls at non-decreasing clock readings leave ascending histories. -/
theorem run_new_sorted (config : Config) (calls : List Call)
    (hclock : (calls.map Call.now).Pairwise (fun a b => a ≤ b)) (k : Int) :
    (stored (run (NewFloodControl config) calls).2 k).Pairwise (fun a b => a ≤ b) := by
  cases hk : (run (NewFloodControl config) calls).2.checks k with
  | none => simp [stored, hk]
  | some h =>
    simp only [stored, hk, Option.getD_some]
    apply run_sorted calls (NewFloodControl config) hclock _ k h hk
    intro k' h' hk'
    simp [NewFloodControl] at hk'

/-- The saturating difference of two readings in order is at most any bound on their
plain difference. -/
theorem Sub_le_of_sub_le {t u w : Int} (h0 : u ≤ t) (hw : t - u ≤ w) : Sub t u ≤ w := by
  unfold Sub maxDuration minDuration
  split_ifs <;> omega

theorem Sub_self (t : Int) : Sub t t = 0 := by
  unfold Sub maxDuration minDuration
  split_ifs <;> omega

/-- Running a sequence of calls in two parts. -/
theorem run_append (fc : floodControl) (xs ys : List Call) :
    run fc (xs ++ ys) =
      ((run fc xs).1 ++ (run (run fc xs).2 ys).1, (run (run fc xs).2 ys).2) := by
  induction xs generalizing fc with
  | nil => rfl
  | cons c cs ih =>
    rw [List.cons_append, run_cons, run_cons, ih]
    rfl

/-- There is one result per call. -/
theorem run_length (fc : floodControl) (calls : List Call) :
    (run fc calls).1.length = calls.length := by
  induction calls generalizing fc with
  | nil => rfl
  | cons c cs ih => rw [run_cons]; simp [ih]

theorem timesFor_append (userID : Int) (xs ys : List Call) :
    timesFor userID (xs ++ ys) = timesFor userID xs ++ timesFor userID ys := by
  simp [timesFor]

theorem resultsFor_cons (userID : Int) (c : Call) (cs : List Call)
    (r : Bool × Option CtxError) (rs : List (Bool × Option CtxError)) :
    resultsFor userID (c :: cs) (r :: rs) =
      if c.userID = userID then r :: resultsFor userID cs rs
      else resultsFor userID cs rs := rfl

theorem admittedTimes_cons (userID : Int) (c : Call) (cs : List Call)
    (r : Bool × Option CtxError) (rs : List (Bool × Option CtxError)) :
    admittedTimes userID (c :: cs) (r :: rs) =
      if c.userID = userID ∧ r.1 = true then c.now :: admittedTimes userID cs rs
      else admittedTimes userID cs rs := rfl

theorem resultsFor_append (userID : Int) (xs ys : List Call) :
    ∀ (rs qs : List (Bool × Option CtxError)), rs.length = xs.length →
      resultsFor userID (xs ++ ys) (rs ++ qs) =
        resultsFor userID xs rs ++ resultsFor userID ys qs := by
  induction xs with
  | nil =>
    intro rs qs hlen
    have : rs = [] := List.length_eq_zero.mp hlen
    subst this
    cases ys <;> cases qs <;> simp [resultsFor]
  | cons c cs ih =>
    intro rs qs hlen
    cases rs with
    | nil => simp at hlen
    | cons r rs =>
      have hl : rs.length = cs.length := by simpa using hlen
      rw [List.cons_append, List.cons_append, resultsFor_cons, resultsFor_cons, ih rs qs hl]
      split_ifs <;> simp

theorem admittedTimes_append (userID : Int) (xs ys : List Call) :
    ∀ (rs qs : List (Bool × Option CtxError)), rs.length = xs.length →
      admittedTimes userID (xs ++ ys) (rs ++ qs) =
        admittedTimes userID xs rs ++ admittedTimes userID ys qs := by
  induction xs with
  | nil =>
    intro rs qs hlen
    have : rs = [] := List.length_eq_zero.mp hlen
    subst this
    cases ys <;> cases qs <;> simp [admittedTimes]
  | cons c cs ih =>
    intro rs qs hlen
    cases rs with
    | nil => simp at hlen
    | cons r rs =>
      have hl : rs.length = cs.length := by simpa using hlen
      rw [List.cons_append, List.cons_append, admittedTimes_cons, admittedTimes_cons,
        ih rs qs hl]
      split_ifs <;> simp

/-- The admitted calls of a user are among its calls, in the same order. -/
theorem admittedTimes_sublist (userID : Int) (calls : List Call) :
    ∀ rs : List (Bool × Option CtxError),
      (admittedTimes userID calls rs).Sublist (timesFor userID calls) := by
  induction calls with
  | nil =>
    intro rs
    cases rs <;> simp [admittedTimes, timesFor]
  | cons c cs ih =>
    intro rs
    cases rs with
    | nil => simp [admittedTimes]
    | cons r rs =>
      by_cases hc : c.userID = userID
      · rw [timesFor_cons_self userID c cs hc]
        by_cases hr : r.1 = true
        · rw [admittedTimes_cons, if_pos ⟨hc, hr⟩]
          exact (ih rs).cons₂ c.now
        · rw [admittedTimes_cons, if_neg (fun h => hr h.2)]
          exact (ih rs).cons c.now
      · rw [timesFor_cons_other userID c cs hc, admittedTimes_cons, if_neg (fun h => hc h.1)]
        exact ih rs

/-- Filtering by a test that implies another one on the list keeps fewer elements. -/
theorem length_filter_le_of_imp (p q : Int → Bool) (l : List Int)
    (h : ∀ t ∈ l, p t = true → q t = true) : (l.filter p).length ≤ (l.filter q).length := by
  induction l with
  | nil => simp
  | cons a rest ih =>
    have hrest := ih (fun t ht => h t (List.mem_cons_of_mem a ht))
    by_cases hp : p a = true
    · have hq : q a = true := h a (List.mem_cons_self a rest) hp
      rw [List.filter_cons_of_pos hp, List.filter_cons_of_pos hq]
      simp only [List.length_cons]
      omega
    · rw [List.filter_cons_of_neg hp]
      by_cases hq : q a = true
      · rw [List.filter_cons_of_pos hq]
        simp only [List.length_cons]
        omega
      · rw [List.filter_cons_of_neg hq]
        exact hrest

/-- The decision of `Check` on an ascending history, as a count of the timestamps within
the interval. -/
theorem Check_admitted_iff (fc : floodControl) (ctx : Context) (userID now : Int)
    (hmax : 1 ≤ fc.config.MaxChecks)
    (hsorted : (stored fc userID).Pairwise (fun a b => a ≤ b)) :
    (Check fc ctx userID now).1.1 = true ↔
      ((((stored fc userID).filter
        (fun t => decide (Sub now t ≤ fc.config.Interval))).length : Int) + 1
          ≤ fc.config.MaxChecks) := by
  cases hc : fc.checks userID with
  | none =>
    rw [Check_absent fc ctx userID now hc]
    simp only [stored, hc, Option.getD_none, List.filter_nil, List.length_nil]
    simp only [Nat.cast_zero, zero_add]
    simp [hmax]
  | some h =>
    rw [Check_present fc ctx userID now h hc]
    simp only [stored, hc, Option.getD_some] at hsorted ⊢
    rw [evict_eq_filter_of_sorted now fc.config.Interval h hsorted]
    simp

/-- The state after one more call at the end of a sequence. -/
theorem run_snoc_state (fc : floodControl) (calls : List Call) (c : Call) :
    (run fc (calls ++ [c])).2 = (Check (run fc calls).2 c.ctx c.userID c.now).2 := by
  rw [run_append]
  rfl

/-- The results after one more call at the end of a sequence. -/
theorem run_snoc_results (fc : floodControl) (calls : List Call) (c : Call) :
    (run fc (calls ++ [c])).1 =
      (run fc calls).1 ++ [(Check (run fc calls).2 c.ctx c.userID c.now).1] := by
  rw [run_append]
  rfl

/-- What the map holds for a user after calls from the empty map: the clock readings of
the calls made for the user, less a front part `dropped` whose timestamps are stale at every
reading that is not before any call made so far; and a history in the map is not empty. -/
theorem run_new_history (config : Config) (calls : List Call) (k : Int) :
    ∃ dropped, timesFor k calls = dropped ++ stored (run (NewFloodControl config) calls).2 k ∧
      (∀ d ∈ dropped, ∀ now, (∀ c ∈ calls, c.now ≤ now) → config.Interval < Sub now d) ∧
      (∀ h, (run (NewFloodControl config) calls).2.checks k = some h → h ≠ []) := by
  induction calls using List.reverseRecOn with
  | nil =>
    refine ⟨[], ?_, ?_, ?_⟩
    · simp [timesFor, stored, run_nil, NewFloodControl]
    · intro d hd
      cases hd
    · intro h hh
      simp [run_nil, NewFloodControl] at hh
  | append_singleton l c ih =>
    obtain ⟨dropped, h1, h2, h3⟩ := ih
    have hcfg : (run (NewFloodControl config) l).2.config = config :=
      run_config (NewFloodControl config) l
    rw [run_snoc_state, timesFor_append]
    by_cases hc : c.userID = k
    · have ht : timesFor k [c] = [c.now] := by simp [timesFor, hc]
      rw [ht]
      subst hc
      cases hs : (run (NewFloodControl config) l).2.checks c.userID with
      | none =>
        rw [Check_absent _ c.ctx c.userID c.now hs]
        simp only [stored, hs, Option.getD_none, List.append_nil] at h1
        refine ⟨dropped, ?_, ?_, ?_⟩
        · simp [stored, setChecks_self, h1]
        · intro d hd now hnow
          exact h2 d hd now (fun c' hc' => hnow c' (List.mem_append_left _ hc'))
        · intro h hh
          rw [setChecks_self] at hh
          rw [← Option.some.inj hh]
          exact List.cons_ne_nil _ _
      | some h0 =>
        rw [Check_present _ c.ctx c.userID c.now h0 hs, hcfg]
        simp only [stored, hs, Option.getD_some] at h1
        obtain ⟨pre, e1, e2, _⟩ := evict_decomp c.now config.Interval h0
        refine ⟨dropped ++ pre, ?_, ?_, ?_⟩
        · simp only [stored, setChecks_self, Option.getD_some]
          rw [h1]
          conv_lhs => rw [e1]
          simp
        · intro d hd now hnow
          rcases List.mem_append.mp hd with hd | hd
          · exact h2 d hd now (fun c' hc' => hnow c' (List.mem_append_left _ hc'))
          · have hle : c.now ≤ now :=
              hnow c (List.mem_append_right _ (List.mem_singleton_self c))
            exact lt_of_lt_of_le (e2 d hd) (Sub_mono_left d hle)
        · intro h hh
          rw [setChecks_self] at hh
          rw [← Option.some.inj hh]
          simp
    · have ht : timesFor k [c] = [] := by simp [timesFor, hc]
      rw [ht, List.append_nil]
      have hk : (Check (run (NewFloodControl config) l).2 c.ctx c.userID c.now).2.checks k
          = (run (NewFloodControl config) l).2.checks k :=
        Check_checks_other _ c.ctx c.now (Ne.symm hc)
      refine ⟨dropped, ?_, ?_, ?_⟩
      · simp only [stored, hk]
        exact h1
      · intro d hd now hnow
        exact h2 d hd now (fun c' hc' => hnow c' (List.mem_append_left _ hc'))
      · intro h hh
        rw [hk] at hh
        exact h3 h hh

/-- The keys of the map after `Check`: those before, and the user checked. -/
theorem Check_isSome_iff (fc : floodControl) (ctx : Context) (userID now k : Int) :
    ((Check fc ctx userID now).2.checks k).isSome = true ↔
      ((fc.checks k).isSome = true ∨ k = userID) := by
  by_cases hk : k = userID
  · subst hk
    obtain ⟨suf, _, hst⟩ := Check_checks_self fc ctx k now
    simp [hst]
  · rw [Check_checks_other fc ctx now hk]
    simp [hk]

/-- A key of the map stays in the map through any sequence of calls. -/
theorem run_isSome (calls : List Call) :
    ∀ (fc : floodControl) (k : Int), (fc.checks k).isSome = true →
      ((run fc calls).2.checks k).isSome = true := by
  induction calls with
  | nil => intro fc k hk; exact hk
  | cons c cs ih =>
    intro fc k hk
    rw [run_cons]
    exact ih _ k ((Check_isSome_iff fc c.ctx c.userID c.now k).mpr (Or.inl hk))

/-- After an admitted call for a user, and any calls for other users, the history of the
user holds at most `MaxChecks` timestamps, or one after a first check. -/
theorem run_new_last_admitted (config : Config) (calls : List Call) (k : Int) :
    ∀ r, (resultsFor k calls (run (NewFloodControl config) calls).1).getLast? = some r →
      r.1 = true →
      ((stored (run (NewFloodControl config) calls).2 k).length : Int)
        ≤ max config.MaxChecks 1 := by
  induction calls using List.reverseRecOn with
  | nil =>
    intro r hr
    simp [run_nil, resultsFor] at hr
  | append_singleton l c ih =>
    intro r hr hadm
    have hcfg : (run (NewFloodControl config) l).2.config = config :=
      run_config (NewFloodControl config) l
    rw [run_snoc_results,
      resultsFor_append k l [c] _ _ (run_length (NewFloodControl config) l),
      resultsFor_cons] at hr
    rw [run_snoc_state]
    by_cases hc : c.userID = k
    · rw [if_pos hc] at hr
      have hr' : (Check (run (NewFloodControl config) l).2 c.ctx c.userID c.now).1 = r := by
        simpa [resultsFor] using hr
      subst hc
      cases hs : (run (NewFloodControl config) l).2.checks c.userID with
      | none =>
        rw [Check_absent _ c.ctx c.userID c.now hs]
        simp only [stored, setChecks_self, Option.getD_some, List.length_singleton,
          Nat.cast_one]
        exact le_max_right _ _
      | some h0 =>
        rw [Check_present _ c.ctx c.userID c.now h0 hs, hcfg] at hr' ⊢
        rw [← hr'] at hadm
        simp only [decide_eq_true_eq] at hadm
        simp only [stored, setChecks_self, Option.getD_some, List.length_append,
          List.length_singleton]
        push_cast
        exact le_trans hadm (le_max_left _ _)
    · rw [if_neg hc] at hr
      have hr' : (resultsFor k l (run (NewFloodControl config) l).1).getLast? = some r := by
        simpa [resultsFor] using hr
      have hk : (Check (run (NewFloodControl config) l).2 c.ctx c.userID c.now).2.checks k
          = (run (NewFloodControl config) l).2.checks k :=
        Check_checks_other _ c.ctx c.now (Ne.symm hc)
      have := ih r hr' hadm
      simpa only [stored, hk] using this

/-! ## The claims -/

/-- C1 (admission decision equals the in-window count test): when `MaxChecks ≥ 1` and the
stored timestamps of the identifier are in non-decreasing order, `Check` at clock reading `now`
admits if and only if (the number of stored timestamps `t` with `now.Sub(t) ≤ Interval`) + 1 is
at most `MaxChecks`, and rejects otherwise; an absent identifier has no stored timestamp.
The claim also assumes `Interval ≥ 0` and that the stored timestamps are `≤ now`; neither is
needed. -/
theorem C1_admission_iff_window_count (fc : floodControl) (ctx : Context) (userID now : Int)
    (hmax : 1 ≤ fc.config.MaxChecks)
    (hsorted : (stored fc userID).Pairwise (fun a b => a ≤ b)) :
    ((Check fc ctx userID now).1.1 = true ↔
      ((((stored fc userID).filter
        (fun t => decide (Sub now t ≤ fc.config.Interval))).length : Int) + 1
          ≤ fc.config.MaxChecks)) ∧
    ((Check fc ctx userID now).1.1 = false ↔
      ¬ ((((stored fc userID).filter
        (fun t => decide (Sub now t ≤ fc.config.Interval))).length : Int) + 1
          ≤ fc.config.MaxChecks)) := by
  cases hc : fc.checks userID with
  | none =>
    rw [Check_absent fc ctx userID now hc]
    simp only [stored, hc, Option.getD_none, List.filter_nil, List.length_nil]
    simp only [Nat.cast_zero, zero_add]
    simp [hmax]
  | some h =>
    rw [Check_present fc ctx userID now h hc]
    simp only [stored, hc, Option.getD_some] at hsorted ⊢
    rw [evict_eq_filter_of_sorted now fc.config.Interval h hsorted]
    simp

/-- Witness of C1: `Interval = 10`, `MaxChecks = 2`, history `[0, 5]`, clock reading `11`:
one stored timestamp is within the interval, so the call is admitted. -/
theorem C1_admission_iff_window_count_witness :
    (1 : Int) ≤ (setChecks (NewFloodControl ⟨10, 2⟩) 123 [0, 5]).config.MaxChecks ∧
      (stored (setChecks (NewFloodControl ⟨10, 2⟩) 123 [0, 5]) 123).Pairwise (fun a b => a ≤ b) ∧
      (Check (setChecks (NewFloodControl ⟨10, 2⟩) 123 [0, 5]) Background 123 11).1.1 = true :=
  ⟨by decide, by decide,
    ((C1_admission_iff_window_count (setChecks (NewFloodControl ⟨10, 2⟩) 123 [0, 5])
      Background 123 11 (by decide) (by decide)).1).2 (by decide)⟩

/-- C2 (burst admission): let `MaxChecks ≥ 1` and let the identifier be absent from the
state. Take any sequence of calls, calls for other identifiers interleaved at will, in which
the calls for the identifier are `MaxChecks + 1` in number, at non-decreasing clock readings,
the last within `Interval` of the first (`t_last.Sub(t_first) ≤ Interval`). Then the results
of the calls for the identifier are `(true, nil)` for the first `MaxChecks` of them and
`(false, nil)` for the last one. -/
theorem C2_burst_admission (fc : floodControl) (userID : Int) (calls : List Call)
    (hmax : 1 ≤ fc.config.MaxChecks) (habsent : fc.checks userID = none)
    (hlen : ((timesFor userID calls).length : Int) = fc.config.MaxChecks + 1)
    (hsorted : (timesFor userID calls).Pairwise (fun a b => a ≤ b))
    (hwin : ∀ t1 tl, (timesFor userID calls).head? = some t1 →
      (timesFor userID calls).getLast? = some tl → Sub tl t1 ≤ fc.config.Interval) :
    resultsFor userID calls (run fc calls).1 =
      List.replicate fc.config.MaxChecks.toNat (true, none) ++ [(false, none)] := by
  cases htimes : timesFor userID calls with
  | nil =>
    rw [htimes] at hlen
    simp only [List.length_nil, Nat.cast_zero] at hlen
    omega
  | cons t1 ts =>
    rw [htimes] at hlen hsorted hwin
    obtain ⟨tl, htl⟩ : ∃ tl, (t1 :: ts).getLast? = some tl :=
      ⟨(t1 :: ts).getLast (List.cons_ne_nil t1 ts), List.getLast?_eq_getLast _ _⟩
    have hw : Sub tl t1 ≤ fc.config.Interval := hwin t1 tl rfl htl
    have hle := le_getLast_of_sorted (t1 :: ts) tl hsorted htl
    have hfresh : ∀ t ∈ ts, Sub t t1 ≤ fc.config.Interval := fun t ht =>
      le_trans (Sub_mono_left t1 (hle t (List.mem_cons_of_mem t1 ht))) hw
    rw [run_fresh_burst userID calls fc t1 ts habsent htimes hfresh]
    simp only [List.length_cons] at hlen
    push_cast at hlen
    obtain ⟨m, hm⟩ : ∃ m, ts.length = m + 1 := ⟨ts.length - 1, by omega⟩
    rw [hm, countUp_burst fc.config.MaxChecks m 1 (by push_cast at hlen ⊢; omega)]
    have hM : fc.config.MaxChecks.toNat = m + 1 := by omega
    rw [hM, List.replicate_succ]
    rfl

/-- Witness of C2, the example of the specification: `Interval = 10s`, `MaxChecks = 5`, six
calls for user 123 one second apart give `[true, true, true, true, true, false]`. -/
theorem C2_burst_admission_witness :
    (NewFloodControl mainConfig).checks 123 = none ∧
      timesFor 123 burstCalls
        = [0, 1000000000, 2000000000, 3000000000, 4000000000, 5000000000] ∧
      Sub 5000000000 0 ≤ mainConfig.Interval ∧
      resultsFor 123 burstCalls (run (NewFloodControl mainConfig) burstCalls).1 =
        [(true, none), (true, none), (true, none), (true, none), (true, none), (false, none)] :=
  ⟨rfl, by decide, by decide,
    C2_burst_admission (NewFloodControl mainConfig) 123 burstCalls (by decide) rfl (by decide)
      (by decide)
      (by
        intro t1 tl h1 h2
        have e1 : t1 = 0 := by
          have : timesFor 123 burstCalls
              = [0, 1000000000, 2000000000, 3000000000, 4000000000, 5000000000] := by decide
          rw [this] at h1
          exact (Option.some.inj h1).symm
        have e2 : tl = 5000000000 := by
          have : timesFor 123 burstCalls
              = [0, 1000000000, 2000000000, 3000000000, 4000000000, 5000000000] := by decide
          rw [this] at h2
          exact (Option.some.inj h2).symm
        rw [e1, e2]
        decide)⟩

/-- C3 (identifier isolation): for identifiers `A ≠ B`, `Check` for `A` leaves what is stored
for `B` (its presence included) exactly as it was; and after any number of calls of `Check`
for `A`, a `Check` for `B` returns the same result and stores the same history for `B` as it
would have without them. -/
theorem C3_identifier_isolation (fc : floodControl) (A B : Int) (hAB : A ≠ B) :
    (∀ (ctxA : Context) (nowA : Int), (Check fc ctxA A nowA).2.checks B = fc.checks B) ∧
    ∀ (calls : List Call), (∀ c ∈ calls, c.userID = A) → ∀ (ctxB : Context) (nowB : Int),
      (Check (run fc calls).2 ctxB B nowB).1 = (Check fc ctxB B nowB).1 ∧
      (Check (run fc calls).2 ctxB B nowB).2.checks B = (Check fc ctxB B nowB).2.checks B := by
  refine ⟨fun ctxA nowA => Check_checks_other fc ctxA nowA (Ne.symm hAB), ?_⟩
  intro calls hcalls ctxB nowB
  apply Check_congr fc (run fc calls).2 ctxB B nowB (run_config fc calls)
  exact run_checks_other fc calls B (fun c hc e => hAB ((hcalls c hc).symm.trans e))

/-- Witness of C3: three calls for user 1 before a call for user 2, whose history `[0, 5]`
is full (`MaxChecks = 2`): the call for user 2 is rejected with or without them. -/
theorem C3_identifier_isolation_witness :
    (1 : Int) ≠ 2 ∧
      (Check (run (setChecks (NewFloodControl ⟨10, 2⟩) 2 [0, 5])
        [callFor 1 6, callFor 1 7, callFor 1 8]).2 Background 2 9).1 =
      (Check (setChecks (NewFloodControl ⟨10, 2⟩) 2 [0, 5]) Background 2 9).1 :=
  ⟨by decide,
    ((C3_identifier_isolation (setChecks (NewFloodControl ⟨10, 2⟩) 2 [0, 5]) 1 2 (by decide)).2
      [callFor 1 6, callFor 1 7, callFor 1 8] (by decide) Background 9).1⟩

/-- C4, counterexample: with a context that is already cancelled, `Check` on the empty state
for user 123 at clock reading 0 returns `(true, nil)`, not an error, and stores `[0]` for the
user, who was absent before. The same happens with an expired context. -/
theorem C4_cancelled_context_counterexample :
    cancelledCtx.Err ≠ none ∧
      (Check (NewFloodControl ⟨10, 5⟩) cancelledCtx 123 0).1 = (true, none) ∧
      (NewFloodControl ⟨10, 5⟩).checks 123 = none ∧
      (Check (NewFloodControl ⟨10, 5⟩) cancelledCtx 123 0).2.checks 123 = some [0] ∧
      expiredCtx.Err ≠ none ∧
      (Check (NewFloodControl ⟨10, 5⟩) expiredCtx 123 0).1 = (true, none) ∧
      (Check (NewFloodControl ⟨10, 5⟩) expiredCtx 123 0).2.checks 123 = some [0] := by
  decide

/-- C4, amended: `Check` never consults its context. For every state, identifier and clock
reading, and every context (cancelled, expired or live), the error returned is `nil`, and the
result and the state after the call are those of the same call with `context.Background()`;
in particular the call records the timestamp. -/
theorem C4_context_is_ignored (fc : floodControl) (ctx : Context) (userID now : Int) :
    (Check fc ctx userID now).1.2 = none ∧
      Check fc ctx userID now = Check fc Background userID now ∧
      ∃ h, (Check fc ctx userID now).2.checks userID = some (h ++ [now]) := by
  cases hc : fc.checks userID with
  | none =>
    rw [Check_absent fc ctx userID now hc, Check_absent fc Background userID now hc]
    exact ⟨rfl, rfl, [], setChecks_self _ _ _⟩
  | some h =>
    rw [Check_present fc ctx userID now h hc, Check_present fc Background userID now h hc]
    exact ⟨rfl, rfl, _, setChecks_self _ _ _⟩

/-- C5 (every call records, whatever the outcome): for an identifier already present with
history `h`, the history after `Check` at `now` is `suf ++ [now]`, where `h = pre ++ suf`,
every timestamp of `pre` is stale (`now.Sub(t) > Interval`) and the first timestamp of `suf`,
if any, is not: the longest stale prefix is removed and `now` is appended. Nothing in the
statement depends on the result, so it holds for rejected and admitted calls alike; the
result is `false` exactly when the new length exceeds `MaxChecks`. When no stored timestamp
is stale, the new history is `h ++ [now]`, of length `h.length + 1`. -/
theorem C5_every_call_records (fc : floodControl) (ctx : Context) (userID now : Int)
    (h : List Int) (hp : fc.checks userID = some h) :
    (∃ pre suf, h = pre ++ suf ∧ (∀ t ∈ pre, fc.config.Interval < Sub now t) ∧
      (∀ t, suf.head? = some t → Sub now t ≤ fc.config.Interval) ∧
      (Check fc ctx userID now).2.checks userID = some (suf ++ [now]) ∧
      ((Check fc ctx userID now).1.1 = false ↔
        fc.config.MaxChecks < ((suf ++ [now]).length : Int))) ∧
    ((∀ t ∈ h, Sub now t ≤ fc.config.Interval) →
      (Check fc ctx userID now).2.checks userID = some (h ++ [now]) ∧
      (stored (Check fc ctx userID now).2 userID).length = h.length + 1) := by
  rw [Check_present fc ctx userID now h hp]
  obtain ⟨pre, h1, h2, h3⟩ := evict_decomp now fc.config.Interval h
  constructor
  · refine ⟨pre, evict now fc.config.Interval h, h1, h2, ?_, setChecks_self _ _ _, ?_⟩
    · intro t ht
      exact not_lt.mp (h3 t ht)
    · simp only [List.length_append, List.length_singleton, decide_eq_false_iff_not, not_le]
      push_cast
      rfl
  · intro hfresh
    have he : evict now fc.config.Interval h = h := by
      cases h with
      | nil => rfl
      | cons a rest =>
        exact evict_head_fresh now _ a rest (hfresh a (List.mem_cons_self a rest))
    rw [he]
    refine ⟨setChecks_self _ _ _, ?_⟩
    simp [stored, setChecks_self]

/-- Witness of C5: `Interval = 10`, `MaxChecks = 1`, history `[0, 5]`, clock reading `7`: the
call is rejected and the history grows to `[0, 5, 7]`. -/
theorem C5_every_call_records_witness :
    (setChecks (NewFloodControl ⟨10, 1⟩) 123 [0, 5]).checks 123 = some [0, 5] ∧
      (Check (setChecks (NewFloodControl ⟨10, 1⟩) 123 [0, 5]) Background 123 7).1.1 = false ∧
      (Check (setChecks (NewFloodControl ⟨10, 1⟩) 123 [0, 5]) Background 123 7).2.checks 123
        = some ([0, 5] ++ [7]) ∧
      (stored (Check (setChecks (NewFloodControl ⟨10, 1⟩) 123 [0, 5]) Background 123 7).2
        123).length = [(0 : Int), 5].length + 1 :=
  ⟨by decide, by decide,
    (C5_every_call_records (setChecks (NewFloodControl ⟨10, 1⟩) 123 [0, 5]) Background 123 7
      [0, 5] (by decide)).2 (by decide)⟩

/-- C6 (rejection persists within the window): let `Check` for the identifier at clock
reading `t1` be rejected, and let later calls `pre` (for any identifiers) and then a call for
the identifier at `t2` follow, the clock readings `t1`, those of `pre`, `t2` being
non-decreasing. If every timestamp stored for the identifier right after the rejected call
is still within the interval at `t2` (`t2.Sub(t) ≤ Interval`), the call at `t2` is rejected
as well. -/
theorem C6_rejection_persists (fc : floodControl) (ctx : Context) (userID t1 : Int)
    (hrej : (Check fc ctx userID t1).1.1 = false)
    (pre : List Call) (ctx2 : Context) (t2 : Int)
    (hclock : (t1 :: (pre.map Call.now ++ [t2])).Pairwise (fun a b => a ≤ b))
    (hwithin : ∀ t ∈ stored (Check fc ctx userID t1).2 userID,
      Sub t2 t ≤ fc.config.Interval) :
    (Check (run (Check fc ctx userID t1).2 pre).2 ctx2 userID t2).1 = (false, none) := by
  cases hc : fc.checks userID with
  | none =>
    rw [Check_absent fc ctx userID t1 hc] at hrej
    cases hrej
  | some h =>
    have hstep := Check_present fc ctx userID t1 h hc
    have hcfg := Check_config fc ctx userID t1
    rw [hstep] at hrej
    simp only [decide_eq_false_iff_not, not_le] at hrej
    have hst : (Check fc ctx userID t1).2.checks userID
        = some (evict t1 fc.config.Interval h ++ [t1]) := by
      rw [hstep]
      exact setChecks_self _ _ _
    obtain ⟨a, rest, hcons⟩ : ∃ a rest, evict t1 fc.config.Interval h ++ [t1] = a :: rest := by
      cases evict t1 fc.config.Interval h with
      | nil => exact ⟨t1, [], rfl⟩
      | cons x xs => exact ⟨x, xs ++ [t1], rfl⟩
    have hlenR : fc.config.MaxChecks < (rest.length : Int) + 1 := by
      have := congrArg List.length hcons
      simp only [List.length_append, List.length_singleton, List.length_cons] at this
      omega
    rw [hcons] at hst
    have ha : Sub t2 a ≤ fc.config.Interval :=
      hwithin a (by simp [stored, hst])
    have hpre_le : ∀ t ∈ pre.map Call.now, t ≤ t2 := by
      intro t ht
      have h1 := (List.pairwise_cons.mp hclock).2
      exact (List.pairwise_append.mp h1).2.2 t ht t2 (List.mem_singleton_self t2)
    have hfresh : ∀ t ∈ timesFor userID pre,
        Sub t a ≤ (Check fc ctx userID t1).2.config.Interval := by
      intro t ht
      rw [hcfg]
      have hmem : t ∈ pre.map Call.now := by
        simp only [timesFor, List.mem_map, List.mem_filter] at ht ⊢
        obtain ⟨c, ⟨hc1, _⟩, hc2⟩ := ht
        exact ⟨c, hc1, hc2⟩
      exact le_trans (Sub_mono_left a (hpre_le t hmem)) ha
    have hrun := (run_no_evict userID a pre (Check fc ctx userID t1).2 rest hst hfresh).1
    rw [Check_present _ ctx2 userID t2 _ hrun, run_config, hcfg]
    rw [List.cons_append, evict_head_fresh t2 _ a _ ha]
    have : ¬ (((a :: (rest ++ timesFor userID pre)).length : Int) + 1
        ≤ fc.config.MaxChecks) := by
      simp only [List.length_cons, List.length_append]
      push_cast
      omega
    rw [decide_eq_false this]

/-- Witness of C6: `Interval = 10`, `MaxChecks = 2`: calls at 0 and 1 are admitted, the call
at 2 is rejected; after further calls at 3 (other user), 4 and 6, the call at 10 is still
rejected, every timestamp stored after the rejection being within the interval. -/
theorem C6_rejection_persists_witness :
    (Check (setChecks (NewFloodControl ⟨10, 2⟩) 123 [0, 1]) Background 123 2).1.1 = false ∧
      (Check (run (Check (setChecks (NewFloodControl ⟨10, 2⟩) 123 [0, 1]) Background 123 2).2
        [callFor 7 3, callFor 123 4, callFor 123 6]).2 Background 123 10).1 = (false, none) :=
  ⟨by decide,
    C6_rejection_persists (setChecks (NewFloodControl ⟨10, 2⟩) 123 [0, 1]) Background 123 2
      (by decide) [callFor 7 3, callFor 123 4, callFor 123 6] Background 10 (by decide)
      (by decide)⟩

/-- C7, counterexample: the configuration and the six calls of `main` (`Interval = 10s`,
`MaxChecks = 5`, calls one second apart, the sixth and last one rejected). The earliest
timestamp recorded is `0`. A call 10.5 seconds after it, at non-decreasing clock reading,
has `now.Sub(e) > Interval` and is rejected all the same: only the earliest timestamp is
evicted, five remain within the interval. -/
theorem C7_earliest_expired_counterexample :
    (1 : Int) ≤ mainConfig.MaxChecks ∧
      (mainCalls.map Call.now ++ [10500000000]).Pairwise (fun a b => a ≤ b) ∧
      (run (NewFloodControl mainConfig) mainCalls).1.map Prod.fst
        = [true, true, true, true, true, false] ∧
      (stored (run (NewFloodControl mainConfig) mainCalls).2 123).head? = some 0 ∧
      mainConfig.Interval < Sub 10500000000 0 ∧
      (Check (run (NewFloodControl mainConfig) mainCalls).2 Background 123 10500000000).1
        = (false, none) := by
  decide

/-- C7, amended: in every state reached from the empty map by calls at non-decreasing clock
readings, with `MaxChecks ≥ 1`, a `Check` for the identifier at clock reading `now` is
admitted exactly when fewer than `MaxChecks` of the timestamps recorded for the identifier
are still within the interval at `now` (`now.Sub(t) ≤ Interval`). In particular it is admitted
when every recorded timestamp is stale at `now`, that is when the caller has waited longer
than the interval since the latest recorded timestamp. -/
theorem C7_expiry_restores_capacity (config : Config) (calls : List Call) (ctx : Context)
    (userID now : Int) (hmax : 1 ≤ config.MaxChecks)
    (hclock : (calls.map Call.now).Pairwise (fun a b => a ≤ b)) :
    ((Check (run (NewFloodControl config) calls).2 ctx userID now).1.1 = true ↔
      (((stored (run (NewFloodControl config) calls).2 userID).filter
        (fun t => decide (Sub now t ≤ config.Interval))).length : Int) < config.MaxChecks) ∧
    ((∀ t ∈ stored (run (NewFloodControl config) calls).2 userID, config.Interval < Sub now t) →
      (Check (run (NewFloodControl config) calls).2 ctx userID now).1.1 = true) := by
  have hcfg : (run (NewFloodControl config) calls).2.config = config :=
    run_config (NewFloodControl config) calls
  have hsorted := run_new_sorted config calls hclock userID
  have hiff : (Check (run (NewFloodControl config) calls).2 ctx userID now).1.1 = true ↔
      (((stored (run (NewFloodControl config) calls).2 userID).filter
        (fun t => decide (Sub now t ≤ config.Interval))).length : Int) < config.MaxChecks := by
    cases hk : (run (NewFloodControl config) calls).2.checks userID with
    | none =>
      rw [Check_absent _ ctx userID now hk]
      simp only [stored, hk, Option.getD_none, List.filter_nil, List.length_nil, Nat.cast_zero,
        true_iff]
      omega
    | some h =>
      simp only [stored, hk, Option.getD_some] at hsorted ⊢
      rw [Check_present _ ctx userID now h hk, hcfg,
        evict_eq_filter_of_sorted now config.Interval h hsorted]
      simp only [decide_eq_true_eq]
      omega
  refine ⟨hiff, fun hstale => hiff.mpr ?_⟩
  have hnil : (stored (run (NewFloodControl config) calls).2 userID).filter
      (fun t => decide (Sub now t ≤ config.Interval)) = [] := by
    apply List.filter_eq_nil_iff.mpr
    intro t ht
    simpa using hstale t ht
  rw [hnil]
  simp only [List.length_nil, Nat.cast_zero]
  omega

/-- Witness of C7 as amended: after the six calls of `main`, a call 11 seconds after the last
one (every recorded timestamp stale) is admitted, and so is a call 14.5 seconds after the
first one (four timestamps stale, two within the interval). -/
theorem C7_expiry_restores_capacity_witness :
    (1 : Int) ≤ mainConfig.MaxChecks ∧
      (mainCalls.map Call.now).Pairwise (fun a b => a ≤ b) ∧
      (Check (run (NewFloodControl mainConfig) mainCalls).2 Background 123 16000000000).1.1
        = true ∧
      ((Check (run (NewFloodControl mainConfig) mainCalls).2 Background 123 14500000000).1.1
        = true ↔
        (((stored (run (NewFloodControl mainConfig) mainCalls).2 123).filter
          (fun t => decide (Sub 14500000000 t ≤ mainConfig.Interval))).length : Int)
            < mainConfig.MaxChecks) :=
  ⟨by decide, by decide,
    (C7_expiry_restores_capacity mainConfig mainCalls Background 123 16000000000 (by decide)
      (by decide)).2 (by decide),
    (C7_expiry_restores_capacity mainConfig mainCalls Background 123 14500000000 (by decide)
      (by decide)).1⟩

/-- C8 (full expiry resets the history): when `MaxChecks ≥ 1`, the identifier is present and
every stored timestamp is stale at `now` (`now.Sub(t) > Interval`), `Check` leaves the
one-element history `[now]` and returns `(true, nil)`. -/
theorem C8_full_expiry_resets (fc : floodControl) (ctx : Context) (userID now : Int)
    (h : List Int) (hmax : 1 ≤ fc.config.MaxChecks) (hp : fc.checks userID = some h)
    (hstale : ∀ t ∈ h, fc.config.Interval < Sub now t) :
    (Check fc ctx userID now).2.checks userID = some [now] ∧
      (Check fc ctx userID now).1 = (true, none) := by
  rw [Check_present fc ctx userID now h hp, evict_all_stale now _ h hstale]
  refine ⟨setChecks_self _ _ _, ?_⟩
  simp [hmax]

/-- Witness of C8, the example of the specification: `Interval = 10s`, `MaxChecks = 5`, six
calls one second apart (the sixth rejected), then a call eleven seconds after the last one:
it is admitted and the history is reset to that single reading. -/
theorem C8_full_expiry_resets_witness :
    (run (NewFloodControl mainConfig) mainCalls).1.map Prod.fst
        = [true, true, true, true, true, false] ∧
      (run (NewFloodControl mainConfig) mainCalls).2.checks 123
        = some [0, 1000000000, 2000000000, 3000000000, 4000000000, 5000000000] ∧
      (Check (run (NewFloodControl mainConfig) mainCalls).2 Background 123
        16000000000).2.checks 123 = some [16000000000] ∧
      (Check (run (NewFloodControl mainConfig) mainCalls).2 Background 123
        16000000000).1 = (true, none) :=
  ⟨by decide, by decide,
    C8_full_expiry_resets (run (NewFloodControl mainConfig) mainCalls).2 Background 123
      16000000000 [0, 1000000000, 2000000000, 3000000000, 4000000000, 5000000000]
      (by decide) (by decide) (by decide)⟩

/-- C9 (boundary exactness of eviction): for an identifier already present with history `h`,
`Check` at `now` removes a prefix `pre` of `h` made only of timestamps with
`now.Sub(t) > Interval`, and keeps the rest `suf` followed by `now`. Every stored timestamp
with `now.Sub(t) ≤ Interval`, one of age exactly `Interval` included, is in `suf`; these
timestamps appear in `suf` in the order they had in `h`; and the length compared against
`MaxChecks` in this call is that of `suf ++ [now]`, which counts them. -/
theorem C9_boundary_exactness (fc : floodControl) (ctx : Context) (userID now : Int)
    (h : List Int) (hp : fc.checks userID = some h) :
    ∃ pre suf, h = pre ++ suf ∧ (∀ t ∈ pre, fc.config.Interval < Sub now t) ∧
      (Check fc ctx userID now).2.checks userID = some (suf ++ [now]) ∧
      (∀ t ∈ h, Sub now t ≤ fc.config.Interval → t ∈ suf) ∧
      (∀ t ∈ h, Sub now t = fc.config.Interval → t ∈ suf) ∧
      (h.filter (fun t => decide (Sub now t ≤ fc.config.Interval))).Sublist suf ∧
      ((Check fc ctx userID now).1.1 = true ↔
        ((suf ++ [now]).length : Int) ≤ fc.config.MaxChecks) := by
  rw [Check_present fc ctx userID now h hp]
  obtain ⟨pre, h1, h2, _⟩ := evict_decomp now fc.config.Interval h
  have hkeep : ∀ t ∈ h, Sub now t ≤ fc.config.Interval →
      t ∈ evict now fc.config.Interval h := by
    intro t ht hle
    rw [h1] at ht
    rcases List.mem_append.mp ht with hpre | hsuf
    · exact absurd (h2 t hpre) (not_lt.mpr hle)
    · exact hsuf
  refine ⟨pre, evict now fc.config.Interval h, h1, h2, setChecks_self _ _ _, hkeep,
    fun t ht he => hkeep t ht (le_of_eq he), ?_, ?_⟩
  · have hpre : pre.filter (fun t => decide (Sub now t ≤ fc.config.Interval)) = [] := by
      apply List.filter_eq_nil_iff.mpr
      intro t ht
      simpa using h2 t ht
    have hf : h.filter (fun t => decide (Sub now t ≤ fc.config.Interval)) =
        (evict now fc.config.Interval h).filter
          (fun t => decide (Sub now t ≤ fc.config.Interval)) := by
      conv_lhs => rw [h1]
      rw [List.filter_append, hpre, List.nil_append]
    rw [hf]
    exact List.filter_sublist _
  · simp only [List.length_append, List.length_singleton, decide_eq_true_eq]
    push_cast
    rfl

/-- Witness of C9: `Interval = 10`, `MaxChecks = 2`, history `[0, 5]`, clock reading `10`:
the timestamp `0`, of age exactly `Interval`, is kept and counted, so the call is rejected
with history `[0, 5, 10]`. -/
theorem C9_boundary_exactness_witness :
    (setChecks (NewFloodControl ⟨10, 2⟩) 123 [0, 5]).checks 123 = some [0, 5] ∧
      Sub 10 0 = (setChecks (NewFloodControl ⟨10, 2⟩) 123 [0, 5]).config.Interval ∧
      (Check (setChecks (NewFloodControl ⟨10, 2⟩) 123 [0, 5]) Background 123 10).1.1 = false ∧
      ∃ pre suf, [(0 : Int), 5] = pre ++ suf ∧ (0 : Int) ∈ suf ∧
        (Check (setChecks (NewFloodControl ⟨10, 2⟩) 123 [0, 5]) Background 123 10).2.checks 123
          = some (suf ++ [10]) := by
  refine ⟨by decide, by decide, by decide, ?_⟩
  obtain ⟨pre, suf, h1, _, h3, _, h5, _, _⟩ :=
    C9_boundary_exactness (setChecks (NewFloodControl ⟨10, 2⟩) 123 [0, 5]) Background 123 10
      [0, 5] (by decide)
  exact ⟨pre, suf, h1, h5 0 (by decide) (by decide), h3⟩

/-- C10 (first-check fast path): for every configuration, whatever `Interval` and `MaxChecks`
(zero and negative values included), every state and every identifier absent from the map,
`Check` returns `(true, nil)` and stores exactly `[now]` for the identifier; keys other than the
identifier and the configuration are untouched. -/
theorem C10_first_check_fast_path (fc : floodControl) (ctx : Context) (userID now : Int)
    (habsent : fc.checks userID = none) :
    (Check fc ctx userID now).1 = (true, none) ∧
      (Check fc ctx userID now).2.checks userID = some [now] ∧
      (∀ k, k ≠ userID → (Check fc ctx userID now).2.checks k = fc.checks k) ∧
      (Check fc ctx userID now).2.config = fc.config := by
  rw [Check_absent fc ctx userID now habsent]
  exact ⟨rfl, setChecks_self _ _ _, fun k hk => setChecks_other fc [now] hk, rfl⟩

/-- Witness of C10 at a configuration with `MaxChecks = 0`. -/
theorem C10_first_check_fast_path_witness :
    (NewFloodControl ⟨10, 0⟩).checks 123 = none ∧
      (Check (NewFloodControl ⟨10, 0⟩) Background 123 7).1 = (true, none) ∧
      (Check (NewFloodControl ⟨10, 0⟩) Background 123 7).2.checks 123 = some [7] :=
  ⟨rfl, (C10_first_check_fast_path (NewFloodControl ⟨10, 0⟩) Background 123 7 rfl).1,
    (C10_first_check_fast_path (NewFloodControl ⟨10, 0⟩) Background 123 7 rfl).2.1⟩

/-- C12 (rate-limit guarantee over traces): when `MaxChecks ≥ 1`, for every sequence of
calls from the empty map at non-decreasing clock readings, every identifier and every closed
interval `[a, a + Interval]` of clock readings, at most `MaxChecks` of the calls for the
identifier that fall in the interval were admitted. The assumption `Interval ≥ 0` of the
claim is not needed: for a negative `Interval` no reading falls in the interval. -/
theorem C12_rate_limit_over_traces (config : Config) (calls : List Call) (userID a : Int)
    (hmax : 1 ≤ config.MaxChecks)
    (hclock : (calls.map Call.now).Pairwise (fun x y => x ≤ y)) :
    (((admittedTimes userID calls (run (NewFloodControl config) calls).1).filter
      (fun t => decide (a ≤ t ∧ t ≤ a + config.Interval))).length : Int)
        ≤ config.MaxChecks := by
  induction calls using List.reverseRecOn with
  | nil =>
    simp only [admittedTimes, List.filter_nil, List.length_nil, Nat.cast_zero]
    omega
  | append_singleton l c ih =>
    rw [List.map_append, List.pairwise_append] at hclock
    obtain ⟨hl, _, hlc⟩ := hclock
    have hle : ∀ c' ∈ l, c'.now ≤ c.now := fun c' hc' =>
      hlc c'.now (List.mem_map_of_mem Call.now hc') c.now (by simp)
    have ih' := ih hl
    rw [run_snoc_results,
      admittedTimes_append userID l [c] _ _ (run_length (NewFloodControl config) l),
      List.filter_append, List.length_append]
    by_cases hadm : (c.userID = userID ∧
        (Check (run (NewFloodControl config) l).2 c.ctx c.userID c.now).1.1 = true) ∧
        (a ≤ c.now ∧ c.now ≤ a + config.Interval)
    · obtain ⟨⟨hc, hr⟩, ha1, ha2⟩ := hadm
      have hcfg : (run (NewFloodControl config) l).2.config = config :=
        run_config (NewFloodControl config) l
      have hsorted := run_new_sorted config l hl userID
      obtain ⟨dropped, h1, h2, _⟩ := run_new_history config l userID
      have hcount := (Check_admitted_iff (run (NewFloodControl config) l).2 c.ctx userID c.now
        (by rw [hcfg]; exact hmax) hsorted).mp (by rw [← hc]; exact hr)
      rw [hcfg] at hcount
      have hone : ((admittedTimes userID [c]
          [(Check (run (NewFloodControl config) l).2 c.ctx c.userID c.now).1]).filter
          (fun t => decide (a ≤ t ∧ t ≤ a + config.Interval))).length = 1 := by
        rw [admittedTimes_cons, if_pos ⟨hc, hr⟩]
        simp [admittedTimes, ha1, ha2]
      have hsub : ((admittedTimes userID l (run (NewFloodControl config) l).1).filter
          (fun t => decide (a ≤ t ∧ t ≤ a + config.Interval))).length ≤
          ((timesFor userID l).filter
            (fun t => decide (a ≤ t ∧ t ≤ a + config.Interval))).length :=
        ((admittedTimes_sublist userID l _).filter _).length_le
      have htimes_le : ∀ t ∈ timesFor userID l, t ≤ c.now := by
        intro t ht
        simp only [timesFor, List.mem_map, List.mem_filter] at ht
        obtain ⟨c', ⟨hc1, _⟩, hc2⟩ := ht
        rw [← hc2]
        exact hle c' hc1
      have himp : ((timesFor userID l).filter
          (fun t => decide (a ≤ t ∧ t ≤ a + config.Interval))).length ≤
          ((timesFor userID l).filter
            (fun t => decide (Sub c.now t ≤ config.Interval))).length := by
        apply length_filter_le_of_imp
        intro t ht hp
        simp only [decide_eq_true_eq] at hp ⊢
        exact Sub_le_of_sub_le (htimes_le t ht) (by omega)
      have hdrop : dropped.filter (fun t => decide (Sub c.now t ≤ config.Interval)) = [] := by
        apply List.filter_eq_nil_iff.mpr
        intro d hd
        simpa using h2 d hd c.now hle
      have hfilter : ((timesFor userID l).filter
          (fun t => decide (Sub c.now t ≤ config.Interval))).length =
          ((stored (run (NewFloodControl config) l).2 userID).filter
            (fun t => decide (Sub c.now t ≤ config.Interval))).length := by
        rw [h1, List.filter_append, hdrop, List.nil_append]
      rw [hone]
      push_cast
      omega
    · have hzero : ((admittedTimes userID [c]
          [(Check (run (NewFloodControl config) l).2 c.ctx c.userID c.now).1]).filter
          (fun t => decide (a ≤ t ∧ t ≤ a + config.Interval))).length = 0 := by
        rw [admittedTimes_cons]
        by_cases h1 : c.userID = userID ∧
            (Check (run (NewFloodControl config) l).2 c.ctx c.userID c.now).1.1 = true
        · rw [if_pos h1]
          have h2 : ¬ (a ≤ c.now ∧ c.now ≤ a + config.Interval) := fun h => hadm ⟨h1, h⟩
          simp [admittedTimes, h2]
        · rw [if_neg h1]
          simp [admittedTimes]
      rw [hzero]
      simpa using ih'

/-- Witness of C12: the configuration of `main` (`Interval = 10s`, `MaxChecks = 5`), its six
calls and two later ones, at 10.5s (rejected) and 16s (admitted): five admitted calls fall in
`[0, 10s]` and one in `[6s, 16s]`. -/
theorem C12_rate_limit_over_traces_witness :
    (run (NewFloodControl mainConfig)
        (mainCalls ++ [callFor 123 10500000000, callFor 123 16000000000])).1.map Prod.fst
        = [true, true, true, true, true, false, false, true] ∧
      (((admittedTimes 123 (mainCalls ++ [callFor 123 10500000000, callFor 123 16000000000])
        (run (NewFloodControl mainConfig)
          (mainCalls ++ [callFor 123 10500000000, callFor 123 16000000000])).1).filter
        (fun t => decide (0 ≤ t ∧ t ≤ 0 + mainConfig.Interval))).length : Int)
          ≤ mainConfig.MaxChecks :=
  ⟨by decide,
    C12_rate_limit_over_traces mainConfig
      (mainCalls ++ [callFor 123 10500000000, callFor 123 16000000000]) 123 0 (by decide)
      (by decide)⟩

/-- C13, counterexample: with `Interval = -1` (a `time.Duration` may be negative), after one
call for user 123 at reading 0 the history `[0]` is ascending; after `Check` at reading 5 the
history holds the timestamp 5, for which `now.Sub(t) = 0` is not `≤ Interval`. -/
theorem C13_negative_interval_counterexample :
    (stored (run (NewFloodControl ⟨-1, 5⟩) [callFor 123 0]).2 123).Pairwise
        (fun a b => a ≤ b) ∧
      stored (Check (run (NewFloodControl ⟨-1, 5⟩) [callFor 123 0]).2 Background 123 5).2 123
        = [5] ∧
      (run (NewFloodControl ⟨-1, 5⟩) [callFor 123 0]).2.config.Interval = -1 ∧
      ¬ (Sub 5 5 ≤ (run (NewFloodControl ⟨-1, 5⟩) [callFor 123 0]).2.config.Interval) := by
  decide

/-- C13, amended (no stale timestamp survives eviction): when the stored timestamps of the
identifier are in non-decreasing order, the history after `Check` at `now` is `kept ++ [now]`
where every timestamp `t` of `kept` has `now.Sub(t) ≤ Interval`; and when `Interval ≥ 0`
every timestamp of the new history, `now` included, has `now.Sub(t) ≤ Interval`. -/
theorem C13_no_stale_survives (fc : floodControl) (ctx : Context) (userID now : Int)
    (hsorted : (stored fc userID).Pairwise (fun a b => a ≤ b)) :
    (∃ kept, stored (Check fc ctx userID now).2 userID = kept ++ [now] ∧
      ∀ t ∈ kept, Sub now t ≤ fc.config.Interval) ∧
    (0 ≤ fc.config.Interval →
      ∀ t ∈ stored (Check fc ctx userID now).2 userID, Sub now t ≤ fc.config.Interval) := by
  have hkept : ∃ kept, stored (Check fc ctx userID now).2 userID = kept ++ [now] ∧
      ∀ t ∈ kept, Sub now t ≤ fc.config.Interval := by
    cases hc : fc.checks userID with
    | none =>
      rw [Check_absent fc ctx userID now hc]
      refine ⟨[], by simp [stored, setChecks_self], ?_⟩
      intro t ht
      cases ht
    | some h =>
      rw [Check_present fc ctx userID now h hc]
      simp only [stored, hc, Option.getD_some] at hsorted
      refine ⟨evict now fc.config.Interval h, by simp [stored, setChecks_self], ?_⟩
      intro t ht
      rw [evict_eq_filter_of_sorted now fc.config.Interval h hsorted] at ht
      simpa using (List.mem_filter.mp ht).2
  refine ⟨hkept, ?_⟩
  intro hwin t ht
  obtain ⟨kept, h1, h2⟩ := hkept
  rw [h1] at ht
  rcases List.mem_append.mp ht with h | h
  · exact h2 t h
  · rw [List.mem_singleton.mp h, Sub_self]
    exact hwin

/-- Witness of C13 as amended: `Interval = 10`, history `[0, 5, 8]`, clock reading `17`:
the timestamps 0 and 5 are evicted and the new history `[8, 17]` holds no stale timestamp. -/
theorem C13_no_stale_survives_witness :
    (stored (setChecks (NewFloodControl ⟨10, 2⟩) 123 [0, 5, 8]) 123).Pairwise
        (fun a b => a ≤ b) ∧
      (0 : Int) ≤ (setChecks (NewFloodControl ⟨10, 2⟩) 123 [0, 5, 8]).config.Interval ∧
      stored (Check (setChecks (NewFloodControl ⟨10, 2⟩) 123 [0, 5, 8]) Background 123 17).2 123
        = [8, 17] ∧
      ∀ t ∈ stored (Check (setChecks (NewFloodControl ⟨10, 2⟩) 123 [0, 5, 8])
          Background 123 17).2 123,
        Sub 17 t ≤ (setChecks (NewFloodControl ⟨10, 2⟩) 123 [0, 5, 8]).config.Interval :=
  ⟨by decide, by decide, by decide,
    (C13_no_stale_survives (setChecks (NewFloodControl ⟨10, 2⟩) 123 [0, 5, 8]) Background 123
      17 (by decide)).2 (by decide)⟩

/-- C14 (ascending-time invariant): in the state reached from the empty map by calls whose
clock readings are non-decreasing in call order, the timestamps stored for every identifier
are in ascending order (each is `≤` the next one); and `Check` keeps the history of the
identifier it is called for ascending whenever that history is ascending and `now` is not
before its last timestamp. -/
theorem C14_ascending_invariant (config : Config) (calls : List Call)
    (hclock : (calls.map Call.now).Pairwise (fun a b => a ≤ b))
    (fc : floodControl) (ctx : Context) (userID now : Int)
    (hsorted : (stored fc userID).Pairwise (fun a b => a ≤ b))
    (hlast : ∀ tl, (stored fc userID).getLast? = some tl → tl ≤ now) :
    (∀ k h, (run (NewFloodControl config) calls).2.checks k = some h →
      h.Pairwise (fun a b => a ≤ b)) ∧
    (stored (Check fc ctx userID now).2 userID).Pairwise (fun a b => a ≤ b) := by
  constructor
  · intro k h hk
    have := run_new_sorted config calls hclock k
    simpa only [stored, hk, Option.getD_some] using this
  · obtain ⟨suf, hsuf, hst⟩ := Check_checks_self fc ctx userID now
    simp only [stored, hst, Option.getD_some]
    rw [List.pairwise_append]
    refine ⟨hsorted.sublist hsuf.sublist, by simp, ?_⟩
    intro t ht u hu
    rw [List.mem_singleton.mp hu]
    have hmem : t ∈ stored fc userID := hsuf.subset ht
    have hne : stored fc userID ≠ [] := List.ne_nil_of_mem hmem
    have hl := List.getLast?_eq_getLast (stored fc userID) hne
    exact le_trans (le_getLast_of_sorted _ _ hsorted hl t hmem) (hlast _ hl)

/-- Witness of C14: the calls of `burstCalls` leave ascending histories, and `Check` at
reading `9` on the ascending history `[0, 5, 8]` leaves an ascending history. -/
theorem C14_ascending_invariant_witness :
    (burstCalls.map Call.now).Pairwise (fun a b => a ≤ b) ∧
      (run (NewFloodControl mainConfig) burstCalls).2.checks 7
        = some [0, 2000000000, 4500000000] ∧
      [(0 : Int), 2000000000, 4500000000].Pairwise (fun a b => a ≤ b) ∧
      (stored (Check (setChecks (NewFloodControl ⟨10, 2⟩) 123 [0, 5, 8]) Background 123 9).2
        123).Pairwise (fun a b => a ≤ b) :=
  ⟨by decide, by decide,
    (C14_ascending_invariant mainConfig burstCalls (by decide)
      (setChecks (NewFloodControl ⟨10, 2⟩) 123 [0, 5, 8]) Background 123 9 (by decide)
      (by
        intro tl htl
        have : stored (setChecks (NewFloodControl ⟨10, 2⟩) 123 [0, 5, 8]) 123 = [0, 5, 8] := by
          decide
        rw [this] at htl
        rw [← Option.some.inj htl]
        decide)).1 7 [0, 2000000000, 4500000000] (by decide),
    (C14_ascending_invariant mainConfig burstCalls (by decide)
      (setChecks (NewFloodControl ⟨10, 2⟩) 123 [0, 5, 8]) Background 123 9 (by decide)
      (by
        intro tl htl
        have : stored (setChecks (NewFloodControl ⟨10, 2⟩) 123 [0, 5, 8]) 123 = [0, 5, 8] := by
          decide
        rw [this] at htl
        rw [← Option.some.inj htl]
        decide)).2⟩

/-- C15, counterexample: the configuration of `main` (`Interval = 10s`, `MaxChecks = 5`) and
seven calls for user 123 one second apart, at non-decreasing clock readings: the sixth and
the seventh are rejected and both are recorded, so the history holds `7` timestamps, more
than `MaxChecks + 1 = 6`. -/
theorem C15_length_bound_counterexample :
    ((mainCalls ++ [callFor 123 6000000000]).map Call.now).Pairwise (fun a b => a ≤ b) ∧
      (run (NewFloodControl mainConfig) (mainCalls ++ [callFor 123 6000000000])).1.map Prod.fst
        = [true, true, true, true, true, false, false] ∧
      (run (NewFloodControl mainConfig) (mainCalls ++ [callFor 123 6000000000])).2.checks 123
        = some [0, 1000000000, 2000000000, 3000000000, 4000000000, 5000000000, 6000000000] ∧
      ¬ (((stored (run (NewFloodControl mainConfig)
          (mainCalls ++ [callFor 123 6000000000])).2 123).length : Int)
        ≤ mainConfig.MaxChecks + 1) := by
  decide

/-- C15, amended (history length): in every state reached from the empty map by calls of
`Check`, the timestamps stored for an identifier are the clock readings of the latest calls
made for it, rejected ones included (a suffix of the readings of all its calls), so their
number is at most the number of calls made for the identifier; and when the latest call for
the identifier was admitted, their number is at most `MaxChecks` (at most `1` after a first
check when `MaxChecks < 1`). Rejected calls are recorded too, so the length is not bounded
by `MaxChecks + 1`. -/
theorem C15_history_length (config : Config) (calls : List Call) (userID : Int) :
    stored (run (NewFloodControl config) calls).2 userID <:+ timesFor userID calls ∧
    (stored (run (NewFloodControl config) calls).2 userID).length
      ≤ (timesFor userID calls).length ∧
    (∀ r, (resultsFor userID calls (run (NewFloodControl config) calls).1).getLast? = some r →
      r.1 = true →
      ((stored (run (NewFloodControl config) calls).2 userID).length : Int)
        ≤ max config.MaxChecks 1) := by
  obtain ⟨dropped, h1, _, _⟩ := run_new_history config calls userID
  have hsuf : stored (run (NewFloodControl config) calls).2 userID <:+ timesFor userID calls :=
    ⟨dropped, h1.symm⟩
  exact ⟨hsuf, hsuf.length_le, run_new_last_admitted config calls userID⟩

/-- Witness of C15 as amended: after the six calls of `main` and a call 11 seconds after
the last one, which is admitted, the history holds one timestamp, at most `MaxChecks = 5`. -/
theorem C15_history_length_witness :
    (resultsFor 123 (mainCalls ++ [callFor 123 16000000000])
        (run (NewFloodControl mainConfig) (mainCalls ++ [callFor 123 16000000000])).1).getLast?
        = some (true, none) ∧
      ((stored (run (NewFloodControl mainConfig)
          (mainCalls ++ [callFor 123 16000000000])).2 123).length : Int)
        ≤ max mainConfig.MaxChecks 1 :=
  ⟨by decide,
    (C15_history_length mainConfig (mainCalls ++ [callFor 123 16000000000]) 123).2.2
      (true, none) (by decide) rfl⟩

/-- C16 (entries are never deleted): the identifiers present in the map after `Check` for
`userID` are exactly those present before together with `userID`; an identifier present in
the map is still present after any sequence of calls; hence an identifier that was checked
once is present after any further sequence of calls. -/
theorem C16_entries_never_deleted (fc : floodControl) (ctx : Context) (userID now : Int) :
    (∀ k, ((Check fc ctx userID now).2.checks k).isSome = true ↔
      ((fc.checks k).isSome = true ∨ k = userID)) ∧
    (∀ (calls : List Call) (k : Int), (fc.checks k).isSome = true →
      ((run fc calls).2.checks k).isSome = true) ∧
    (∀ calls : List Call,
      ((run (Check fc ctx userID now).2 calls).2.checks userID).isSome = true) := by
  refine ⟨fun k => Check_isSome_iff fc ctx userID now k, fun calls k hk => run_isSome calls fc k hk,
    fun calls => run_isSome calls _ userID ?_⟩
  exact (Check_isSome_iff fc ctx userID now userID).mpr (Or.inr rfl)

/-- Witness of C16: user 7, checked once at reading 0, is still in the map after the six
calls of `main` for user 123 and a call long after, and user 8 never enters it. -/
theorem C16_entries_never_deleted_witness :
    ((run (Check (NewFloodControl mainConfig) Background 7 0).2
        (mainCalls ++ [callFor 123 90000000000])).2.checks 7).isSome = true ∧
      ((Check (NewFloodControl mainConfig) Background 7 0).2.checks 8).isSome = false :=
  ⟨(C16_entries_never_deleted (NewFloodControl mainConfig) Background 7 0).2.2
      (mainCalls ++ [callFor 123 90000000000]),
    by decide⟩

/-- C17 (stored histories are never empty): in every state reached from the empty map by
any sequence of calls of `Check`, whatever the clock readings and the configuration, the
history of an identifier present in the map is not empty, and its last timestamp is the
clock reading of the latest call made for that identifier. -/
theorem C17_histories_never_empty (config : Config) (calls : List Call) (k : Int)
    (h : List Int) (hk : (run (NewFloodControl config) calls).2.checks k = some h) :
    h ≠ [] ∧ timesFor k calls ≠ [] ∧ h.getLast? = (timesFor k calls).getLast? := by
  obtain ⟨dropped, h1, _, h3⟩ := run_new_history config calls k
  have hne : h ≠ [] := h3 h hk
  simp only [stored, hk, Option.getD_some] at h1
  refine ⟨hne, ?_, ?_⟩
  · rw [h1]
    exact List.append_ne_nil_of_right_ne_nil dropped hne
  · rw [h1, List.getLast?_append_of_ne_nil dropped hne]

/-- Witness of C17: after the six calls of `main` and a call at 16s, the history of user 123
is `[16s]`, whose last timestamp is the reading of the latest call for user 123. -/
theorem C17_histories_never_empty_witness :
    (run (NewFloodControl mainConfig) (mainCalls ++ [callFor 123 16000000000])).2.checks 123
        = some [16000000000] ∧
      [(16000000000 : Int)] ≠ [] ∧
      [(16000000000 : Int)].getLast?
        = (timesFor 123 (mainCalls ++ [callFor 123 16000000000])).getLast? :=
  ⟨by decide,
    (C17_histories_never_empty mainConfig (mainCalls ++ [callFor 123 16000000000]) 123
      [16000000000] (by decide)).1,
    (C17_histories_never_empty mainConfig (mainCalls ++ [callFor 123 16000000000]) 123
      [16000000000] (by decide)).2.2⟩

end FloodControl
